import Mathlib

/-!
The Postgres client of nvim-dbee (`dbee/clients/postgres.go`).

A shallow embedding of `PostgresClient` (`Query`, `Schema`) and `PostgresRows`
(`Header`, `Next`), followed by the properties of the row iterator and of the
schema fold, and by the Call state machine of the core.
-/

namespace Dbee

/-! ## Data model -/

/-- A Go `string` (and the contents of a `[]byte`): a sequence of bytes. -/
abbrev GoString := List Nat

/-- A Go `error` value that is not nil, identified by its message. -/
abbrev GoError := String

/-- The dynamically typed scalar a driver hands out in a row (`any`): the kinds
`database/sql` produces. `str` is a Go `string`, `bytes` a Go `[]byte`. -/
inductive Value where
  | null
  | bool (b : Bool)
  | int (i : Int)
  | float (bits : Nat)
  | str (s : GoString)
  | bytes (b : GoString)
  | time (t : Int)
deriving DecidableEq, Repr

/-- The type `conn.Row`, a slice of values; where a row may be the nil slice it is
an `Option Row`, `none` standing for nil and `some []` for an empty non-nil row. -/
abbrev Row := List Value

/-- The type `conn.Header`, the column names. -/
abbrev Header := List GoString

/-- The type `conn.Meta`: the query text and the time execution began. -/
structure Meta where
  Query : String
  Timestamp : Nat
deriving DecidableEq, Repr

/-- The cursor type `sqlRows` that `PostgresRows` wraps. It is declared elsewhere
in package `clients`, so it is taken as a parameter: an arbitrary deterministic
cursor, `script k` being what its call number `k` of `next()`
answers (a row that may be nil, an error that may be nil), `pos` the number of
calls made so far and `cols` the answer of `header()`. -/
structure sqlRows where
  script : Nat → Option Row × Option GoError
  cols : Option Header × Option GoError
  pos : Nat

/-- One call of `sqlRows.next()`: the answer and the advanced cursor. -/
def sqlRows.next (r : sqlRows) : (Option Row × Option GoError) × sqlRows :=
  (r.script r.pos, { r with pos := r.pos + 1 })

/-- The answer of `sqlRows.header()`. -/
def sqlRows.header (r : sqlRows) : Option Header × Option GoError :=
  r.cols

/-- The answer of call number `k` (counting from 0) in a run of successive
`next()` calls on the cursor. -/
def sqlRows.nextAt : sqlRows → Nat → Option Row × Option GoError
  | r, 0 => r.next.1
  | r, k + 1 => sqlRows.nextAt r.next.2 k

/-- The handle `sqlClient` of the client. It is declared elsewhere in package
`clients`, so `query` is a parameter: a call either fails with an error or hands
back a cursor. -/
structure sqlClient where
  query : String → Except GoError sqlRows

/-- The struct `PostgresClient`. -/
structure PostgresClient where
  sql : sqlClient

/-- The struct `PostgresRows`. -/
structure PostgresRows where
  dbRows : sqlRows
  meta : Meta

/-- The constructor `newPGRows`. -/
def newPGRows (rows : sqlRows) (meta : Meta) : PostgresRows :=
  { dbRows := rows, meta := meta }

/-! ## The row iterator -/

/-- The method `PostgresRows.Header`. -/
def PostgresRows.Header (r : PostgresRows) : Option Header × Option GoError :=
  r.dbRows.header

/-- One pass of the loop body of `Next`: `valb, ok := val.([]byte)`, and when `ok`
the value becomes `string(valb)`. -/
def coerceBytes (val : Value) : Value :=
  match val with
  | .bytes valb => .str valb
  | _ => val

/-- The loop `for i, val := range row` of `Next`, writing `row[i]` in place. -/
def fixRow (row : Row) : Row :=
  (List.range row.length).foldl
    (fun acc i =>
      match acc[i]? with
      | some val => acc.set i (coerceBytes val)
      | none => acc)
    row

/-- The method `PostgresRows.Next`: the returned (row, error) and the iterator
after the call. Ranging over the nil row runs no pass and returns nil. -/
def PostgresRows.Next (r : PostgresRows) : (Option Row × Option GoError) × PostgresRows :=
  let res := r.dbRows.next
  let r' : PostgresRows := { r with dbRows := res.2 }
  match res.1 with
  | (_, some err) => ((none, some err), r')
  | (none, none) => ((none, none), r')
  | (some row, none) => ((some (fixRow row), none), r')

/-- The answer of call number `k` (counting from 0) in a run of successive
`Next()` calls on the iterator. -/
def PostgresRows.nextAt : PostgresRows → Nat → Option Row × Option GoError
  | r, 0 => r.Next.1
  | r, k + 1 => PostgresRows.nextAt r.Next.2 k

/-! ## The client -/

/-- The method `PostgresClient.Query`; `now` is the reading of `time.Now()`. -/
def PostgresClient.Query (c : PostgresClient) (query : String) (now : Nat) :
    Option PostgresRows × Option GoError :=
  match c.sql.query query with
  | .error err => (none, some err)
  | .ok dbRows =>
    let meta : Meta := { Query := query, Timestamp := now }
    let rows := newPGRows dbRows meta
    (some rows, none)

/-- The type `conn.Schema`, used by `Schema` as a Go map from a schema name to a
slice of object names: here the list of its entries, one per key. -/
structure Schema where
  entries : List (GoString × List GoString)
deriving DecidableEq, Repr

/-- Lookup in a list of map entries. -/
def lookupEntry : List (GoString × List GoString) → GoString → Option (List GoString)
  | [], _ => none
  | (k', v') :: es, k => if k' = k then some v' else lookupEntry es k

/-- Store in a list of map entries: overwrite the entry of the key or add one. -/
def storeEntry : List (GoString × List GoString) → GoString → List GoString →
    List (GoString × List GoString)
  | [], k, v => [(k, v)]
  | (k', v') :: es, k, v => if k' = k then (k, v) :: es else (k', v') :: storeEntry es k v

/-- Whether `k` is a key of the map. -/
def Schema.has (m : Schema) (k : GoString) : Bool :=
  (lookupEntry m.entries k).isSome

/-- The index expression `schema[key]`: the nil slice when the key is absent. -/
def Schema.get (m : Schema) (k : GoString) : List GoString :=
  (lookupEntry m.entries k).getD []

/-- The assignment `schema[key] = v`. -/
def Schema.set (m : Schema) (k : GoString) (v : List GoString) : Schema :=
  ⟨storeEntry m.entries k v⟩

/-- The type assertion `x.(string)` on an indexed value `row[i]`: `none` when the
index is out of range or the value is not a string (both panic). -/
def asString : Option Value → Option GoString
  | some (.str s) => some s
  | _ => none

/-- The two statements `key := row[0].(string)` and `val := row[1].(string)`:
`none` when either panics. -/
def keyVal (row : Row) : Option (GoString × GoString) :=
  match asString row[0]? with
  | none => none
  | some key =>
    match asString row[1]? with
    | none => none
    | some val => some (key, val)

/-- How a run of `Schema` ends. -/
inductive SchemaResult where
  /-- The function returned `(schema, err)`. -/
  | returned (schema : Option Schema) (err : Option GoError)
  /-- A run-time panic: an index out of range or a failed type assertion. -/
  | panicked
  /-- The loop was still running when the fuel ran out. -/
  | running
deriving DecidableEq, Repr

/-- A run of `Schema`: how it ended and how many `Next` calls it made. -/
structure SchemaRun where
  result : SchemaResult
  nextCalls : Nat
deriving DecidableEq, Repr

/-- The `for` loop of `Schema`, at most `fuel` passes: `rows` is the iterator,
`schema` the map so far, `calls` the number of `Next` calls so far. -/
def schemaLoop : Nat → PostgresRows → Schema → Nat → SchemaRun
  | 0, _, _, calls => ⟨.running, calls⟩
  | fuel + 1, rows, schema, calls =>
    let res := rows.Next
    match res.1 with
    | (none, _) => ⟨.returned (some schema) none, calls + 1⟩
    | (some _, some err) => ⟨.returned none (some err), calls + 1⟩
    | (some row, none) =>
      match keyVal row with
      | none => ⟨.panicked, calls + 1⟩
      | some (key, val) =>
        schemaLoop fuel res.2 (schema.set key (schema.get key ++ [val])) (calls + 1)

/-- The introspection query of `Schema`. -/
def schemaQuery : String :=
  "\n\t\tSELECT table_schema, table_name FROM information_schema.tables UNION ALL\n\t\tSELECT schemaname, matviewname FROM pg_matviews;\n\t"

/-- The method `PostgresClient.Schema`, its loop bounded by `fuel` passes. -/
def PostgresClient.Schema (c : PostgresClient) (now : Nat) (fuel : Nat) : SchemaRun :=
  match c.Query schemaQuery now with
  | (_, some err) => ⟨.returned none (some err), 0⟩
  | (none, none) => ⟨.panicked, 0⟩
  | (some rows, none) => schemaLoop fuel rows ⟨[]⟩ 0

/-! ## The schema fold on lists -/

/-- A value that is text: a string or a byte buffer. -/
def Value.isText : Value → Bool
  | .str _ => true
  | .bytes _ => true
  | _ => false

/-- A row with at least two values whose first two values are text. -/
def twoTexts : Row → Bool
  | a :: b :: _ => a.isText && b.isText
  | _ => false

/-- The map after the loop body has run on the entries `es`, from the map `m`. -/
def foldEntries : List (GoString × GoString) → Schema → Schema
  | [], m => m
  | (key, val) :: es, m => foldEntries es (m.set key (m.get key ++ [val]))

/-- The loop of `Schema` on a list of rows that a nil row follows. -/
def foldRows : Nat → List Row → Schema → SchemaResult
  | 0, _, _ => .running
  | _ + 1, [], m => .returned (some m) none
  | fuel + 1, row :: rest, m =>
    match keyVal row with
    | none => .panicked
    | some (key, val) => foldRows fuel rest (m.set key (m.get key ++ [val]))

/-! ## The Call state machine -/

/-- Modelled from the spec: the enum `CallState` of package `core`, with the
values of section 3 under the names the integration tests use. -/
inductive CallState where
  | Unknown
  | Executing
  | ExecutingFailed
  | Retrieving
  | RetrievingFailed
  | Archived
  | Canceled
deriving DecidableEq, Repr

/-- Modelled from the spec: package `core` (Connection, Call) is absent from the
sources, which hold only its integration tests. What can happen to a Call, after
section 4.3:
`Execute` issues it, the adapter's query call fails or returns an iterator,
draining fails or completes, the caller cancels. -/
inductive CallEvent where
  | issued
  | queryFailed
  | queryReturned
  | drainFailed
  | drainDone
  | cancel
deriving DecidableEq, Repr

/-- Modelled from the spec: the terminal states of section 3, `ExecutingFailed`,
`RetrievingFailed`, `Archived` and `Canceled`. -/
def CallState.terminal : CallState → Bool
  | .ExecutingFailed => true
  | .RetrievingFailed => true
  | .Archived => true
  | .Canceled => true
  | _ => false

/-- Modelled from the spec: the seven transitions of section 4.3. An event with no
transition from the current state changes nothing (cancelling a terminal Call is
a no-op). -/
def CallState.step : CallState → CallEvent → Option CallState
  | .Unknown, .issued => some .Executing
  | .Executing, .queryFailed => some .ExecutingFailed
  | .Executing, .queryReturned => some .Retrieving
  | .Executing, .cancel => some .Canceled
  | .Retrieving, .drainFailed => some .RetrievingFailed
  | .Retrieving, .drainDone => some .Archived
  | .Retrieving, .cancel => some .Canceled
  | _, _ => none

/-- Modelled from the spec: a Call of package `core`, reduced to its state and the
states delivered to the observer so far, in order of delivery. -/
structure Call where
  state : CallState
  observed : List CallState
deriving DecidableEq, Repr

/-- Modelled from the spec: one event on a Call; every transition is delivered to
the observer exactly once, in transition order (section 4.3). -/
def Call.handle (c : Call) (e : CallEvent) : Call :=
  match c.state.step e with
  | some s => { state := s, observed := c.observed ++ [s] }
  | none => c

/-- Modelled from the spec: `Connection.Execute` of package `core`. The Call
starts in `Unknown`, is issued at once, and then meets `events`. -/
def Execute (events : List CallEvent) : Call :=
  (CallEvent.issued :: events).foldl Call.handle { state := .Unknown, observed := [] }

/-- Modelled from the spec: the paths of the state machine of section 4.3 from
`Unknown` to a terminal state, as the observer sees them. -/
def validPaths : List (List CallState) :=
  [[.Executing, .ExecutingFailed],
   [.Executing, .Canceled],
   [.Executing, .Retrieving, .RetrievingFailed],
   [.Executing, .Retrieving, .Archived],
   [.Executing, .Retrieving, .Canceled]]

/-- The configurations a Call can be in once issued. -/
def issuedCalls : List Call :=
  [⟨.Executing, [.Executing]⟩,
   ⟨.ExecutingFailed, [.Executing, .ExecutingFailed]⟩,
   ⟨.Canceled, [.Executing, .Canceled]⟩,
   ⟨.Retrieving, [.Executing, .Retrieving]⟩,
   ⟨.RetrievingFailed, [.Executing, .Retrieving, .RetrievingFailed]⟩,
   ⟨.Archived, [.Executing, .Retrieving, .Archived]⟩,
   ⟨.Canceled, [.Executing, .Retrieving, .Canceled]⟩]

/-! ## Concrete cursors and clients -/

/-- The bytes of `public`. -/
def sPublic : GoString := [112, 117, 98, 108, 105, 99]

/-- The bytes of `audit`. -/
def sAudit : GoString := [97, 117, 100, 105, 116]

/-- The bytes of `users`. -/
def sUsers : GoString := [117, 115, 101, 114, 115]

/-- The bytes of `orders`. -/
def sOrders : GoString := [111, 114, 100, 101, 114, 115]

/-- The bytes of `log`. -/
def sLog : GoString := [108, 111, 103]

/-- A client whose every query hands back the cursor `d`. -/
def clientOf (d : sqlRows) : PostgresClient :=
  { sql := { query := fun _ => .ok d } }

/-- A client whose every query the backend rejects. -/
def rejectingClient : PostgresClient :=
  { sql := { query := fun _ => .error "pq: syntax error at end of input" } }

/-- A cursor of three rows over columns (schema, name), the way `pq` hands them
out: text as byte buffers in places, one row with a third value. -/
def threeRows : sqlRows :=
  { script := fun k =>
      match k with
      | 0 => (some [.bytes sPublic, .bytes sUsers], none)
      | 1 => (some [.str sAudit, .bytes sLog, .int 7], none)
      | 2 => (some [.bytes sPublic, .str sOrders], none)
      | _ => (none, none)
    cols := (some [[116, 97, 98, 108, 101, 95, 115, 99, 104, 101, 109, 97],
      [116, 97, 98, 108, 101, 95, 110, 97, 109, 101]], none)
    pos := 0 }

/-- A cursor that yields the same (schema, name) row twice. -/
def repeatedRow : sqlRows :=
  { script := fun k =>
      match k with
      | 0 => (some [.bytes sPublic, .bytes sUsers], none)
      | 1 => (some [.bytes sPublic, .bytes sUsers], none)
      | _ => (none, none)
    cols := (some [sPublic, sUsers], none)
    pos := 0 }

/-- A cursor whose second `next()` fails: one row, then an error. -/
def brokenAfterOne : sqlRows :=
  { script := fun k =>
      match k with
      | 0 => (some [.bytes sPublic, .bytes sUsers], none)
      | _ => (none, some "pq: connection reset by peer")
    cols := (some [sPublic, sUsers], none)
    pos := 0 }

/-- A cursor whose first row has a single value. -/
def shortRow : sqlRows :=
  { script := fun k =>
      match k with
      | 0 => (some [.bytes sPublic], none)
      | _ => (none, none)
    cols := (some [sPublic], none)
    pos := 0 }

/-- A cursor that is exhausted from the start. -/
def exhausted : sqlRows :=
  { script := fun _ => (none, none)
    cols := (some [sPublic, sUsers], none)
    pos := 0 }

/-! ## The row iterator: lemmas -/

theorem fixRow_loop_getElem? (row : Row) (n : Nat) : ∀ j : Nat,
    ((List.range n).foldl
      (fun acc i =>
        match acc[i]? with
        | some val => acc.set i (coerceBytes val)
        | none => acc)
      row)[j]? = if j < n then row[j]?.map coerceBytes else row[j]? := by
  induction n with
  | zero => simp
  | succ n ih =>
    intro j
    rw [List.range_succ, List.foldl_append]
    simp only [List.foldl_cons, List.foldl_nil]
    generalize (List.range n).foldl _ row = acc at ih ⊢
    have hn : acc[n]? = row[n]? := by simpa using ih n
    have hlen : n < acc.length ↔ n < row.length := by
      have h1 : acc[n]? = none ↔ row[n]? = none := by rw [hn]
      rw [List.getElem?_eq_none_iff, List.getElem?_eq_none_iff] at h1
      omega
    rw [hn]
    cases hrow : row[n]? with
    | none =>
      simp only [ih j]
      by_cases h1 : j < n
      · simp [h1, Nat.lt_succ_of_lt h1]
      · by_cases h2 : j = n
        · subst h2; simp [hrow]
        · have : ¬ j < n + 1 := by omega
          simp [h1, this]
    | some v =>
      simp only [List.getElem?_set]
      by_cases h2 : n = j
      · subst h2
        have : n < acc.length := by
          rw [hlen]; exact (List.getElem?_eq_some_iff.mp hrow).1
        simp [this, hrow]
      · have h3 : (j < n + 1) = (j < n) := by
          apply propext; omega
        simp [h2, ih j, h3]

theorem fixRow_eq_map (row : Row) : fixRow row = row.map coerceBytes := by
  apply List.ext_getElem?
  intro j
  unfold fixRow
  rw [fixRow_loop_getElem?]
  by_cases h : j < row.length
  · simp [h]
  · simp [h, List.getElem?_eq_none (Nat.le_of_not_lt h)]

/-- What `Next` makes of the answer of the underlying cursor. -/
theorem Next_fst (r : PostgresRows) :
    r.Next.1 =
      match r.dbRows.next.1 with
      | (_, some err) => (none, some err)
      | (none, none) => (none, none)
      | (some row, none) => (some (row.map coerceBytes), none) := by
  unfold PostgresRows.Next
  rcases h : r.dbRows.next.1 with ⟨row, err⟩
  cases err <;> cases row <;> simp [h, fixRow_eq_map]

theorem Next_snd_dbRows (r : PostgresRows) : r.Next.2.dbRows = r.dbRows.next.2 := by
  unfold PostgresRows.Next
  rcases h : r.dbRows.next.1 with ⟨row, err⟩
  cases err <;> cases row <;> simp [h]

/-- Call number `k` of `Next` answers from call number `k` of the cursor. -/
theorem nextAt_eq (k : Nat) : ∀ r : PostgresRows,
    r.nextAt k =
      match r.dbRows.nextAt k with
      | (_, some err) => (none, some err)
      | (none, none) => (none, none)
      | (some row, none) => (some (row.map coerceBytes), none) := by
  induction k with
  | zero => intro r; simp only [PostgresRows.nextAt, sqlRows.nextAt, Next_fst]
  | succ k ih =>
    intro r
    simp only [PostgresRows.nextAt, sqlRows.nextAt, ih, Next_snd_dbRows]

theorem sqlRows_nextAt_eq (k : Nat) : ∀ r : sqlRows, r.nextAt k = r.script (r.pos + k) := by
  induction k with
  | zero => intro r; simp [sqlRows.nextAt, sqlRows.next]
  | succ k ih =>
    intro r
    simp only [sqlRows.nextAt, ih]
    simp [sqlRows.next, Nat.add_assoc, Nat.add_comm 1 k]

/-- A row `Next` returns comes without an error. -/
theorem nextAt_fst_some {r : PostgresRows} {k : Nat} {row : Row}
    (h : (r.nextAt k).1 = some row) : r.nextAt k = (some row, none) := by
  rw [nextAt_eq] at h ⊢
  rcases hk : r.dbRows.nextAt k with ⟨row', err⟩
  rw [hk] at h
  cases err <;> cases row' <;> simp_all

theorem coerceBytes_ne_bytes (v : Value) (b : GoString) : coerceBytes v ≠ .bytes b := by
  cases v <;> simp [coerceBytes]

/-! ## The schema fold: lemmas -/

theorem lookupEntry_storeEntry (es : List (GoString × List GoString)) (k : GoString)
    (v : List GoString) (k' : GoString) :
    lookupEntry (storeEntry es k v) k' = if k = k' then some v else lookupEntry es k' := by
  induction es with
  | nil => simp [storeEntry, lookupEntry]
  | cons e es ih =>
    rcases e with ⟨a, b⟩
    by_cases h1 : a = k
    · subst h1
      by_cases h2 : a = k' <;> simp [storeEntry, lookupEntry, h2]
    · by_cases h2 : a = k'
      · subst h2
        have h3 : ¬ k = a := fun h => h1 h.symm
        simp [storeEntry, lookupEntry, h1, h3]
      · simp [storeEntry, lookupEntry, h1, h2, ih]

theorem Schema.get_set (m : Schema) (k : GoString) (v : List GoString) (k' : GoString) :
    (m.set k v).get k' = if k = k' then v else m.get k' := by
  unfold Schema.get Schema.set
  rw [lookupEntry_storeEntry]
  by_cases h : k = k' <;> simp [h]

theorem Schema.has_set (m : Schema) (k : GoString) (v : List GoString) (k' : GoString) :
    (m.set k v).has k' = (decide (k = k') || m.has k') := by
  unfold Schema.has Schema.set
  rw [lookupEntry_storeEntry]
  by_cases h : k = k' <;> simp [h]

theorem foldEntries_get (es : List (GoString × GoString)) : ∀ (m : Schema) (k : GoString),
    (foldEntries es m).get k = m.get k ++ (es.filter (fun e => e.1 = k)).map (fun e => e.2) := by
  induction es with
  | nil => intro m k; simp [foldEntries]
  | cons e es ih =>
    intro m k
    rcases e with ⟨key, val⟩
    simp only [foldEntries, ih, Schema.get_set]
    by_cases h : key = k <;> simp [h]

theorem foldEntries_has (es : List (GoString × GoString)) : ∀ (m : Schema) (k : GoString),
    (foldEntries es m).has k = true ↔ m.has k = true ∨ ∃ e ∈ es, e.1 = k := by
  induction es with
  | nil => intro m k; simp [foldEntries]
  | cons e es ih =>
    intro m k
    rcases e with ⟨key, val⟩
    simp only [foldEntries, ih, Schema.has_set]
    by_cases h : key = k <;> simp [h]

/-- The loop on an iterator agrees with the loop on the list of the rows its
successive `Next` calls return before the first nil row. -/
theorem schemaLoop_result (rows : List Row) : ∀ (r : PostgresRows) (m : Schema)
    (calls fuel : Nat),
    (∀ i (h : i < rows.length), (r.nextAt i).1 = some (rows.get ⟨i, h⟩)) →
    (r.nextAt rows.length).1 = none →
    (schemaLoop fuel r m calls).result = foldRows fuel rows m := by
  induction rows with
  | nil =>
    intro r m calls fuel _ hnil
    cases fuel with
    | zero => simp [schemaLoop, foldRows]
    | succ fuel =>
      simp only [PostgresRows.nextAt, List.length_nil] at hnil
      rcases hN : r.Next.1 with ⟨row, err⟩
      rw [hN] at hnil
      simp only at hnil
      subst hnil
      simp [schemaLoop, foldRows, hN]
  | cons row rest ih =>
    intro r m calls fuel hrows hnil
    cases fuel with
    | zero => simp [schemaLoop, foldRows]
    | succ fuel =>
      have h0 : r.Next.1 = (some row, none) := by
        have := nextAt_fst_some (hrows 0 (by simp))
        simpa [PostgresRows.nextAt] using this
      have hrest : ∀ i (h : i < rest.length),
          (r.Next.2.nextAt i).1 = some (rest.get ⟨i, h⟩) := by
        intro i h
        have := hrows (i + 1) (by simp; omega)
        simpa [PostgresRows.nextAt] using this
      have hnil' : (r.Next.2.nextAt rest.length).1 = none := by
        simpa [PostgresRows.nextAt] using hnil
      simp only [schemaLoop, foldRows, h0]
      cases hkv : keyVal row with
      | none => simp
      | some kv =>
        rcases kv with ⟨key, val⟩
        simp only
        exact ih r.Next.2 _ _ fuel hrest hnil'

theorem keyVal_eq_some_iff (row : Row) (k v : GoString) :
    keyVal row = some (k, v) ↔ row[0]? = some (.str k) ∧ row[1]? = some (.str v) := by
  unfold keyVal
  rcases h0 : row[0]? with _ | a
  · simp [asString]
  · rcases h1 : row[1]? with _ | b
    · cases a <;> simp [asString]
    · cases a <;> cases b <;> simp [asString]

theorem keyVal_map_coerceBytes (row : Row) :
    (keyVal (row.map coerceBytes)).isSome = twoTexts row := by
  rcases row with _ | ⟨a, _ | ⟨b, rest⟩⟩
  · simp [keyVal, asString, twoTexts]
  · cases a <;> simp [keyVal, asString, twoTexts, coerceBytes]
  · cases a <;> cases b <;> simp [keyVal, asString, twoTexts, coerceBytes, Value.isText]

/-- A run of the loop on a list that returns has read every row, and every row
gave an entry. -/
theorem foldRows_returned (rows : List Row) : ∀ (fuel : Nat) (m : Schema)
    (sm : Option Schema) (err : Option GoError),
    foldRows fuel rows m = .returned sm err →
    err = none ∧ rows.length < fuel ∧
      ∃ es, List.Forall₂ (fun row e => keyVal row = some e) rows es ∧
        sm = some (foldEntries es m) := by
  induction rows with
  | nil =>
    intro fuel m sm err h
    cases fuel with
    | zero => simp [foldRows] at h
    | succ fuel =>
      simp only [foldRows, SchemaResult.returned.injEq] at h
      exact ⟨h.2.symm, by simp, [], List.Forall₂.nil, by simp [foldEntries, h.1]⟩
  | cons row rest ih =>
    intro fuel m sm err h
    cases fuel with
    | zero => simp [foldRows] at h
    | succ fuel =>
      simp only [foldRows] at h
      cases hkv : keyVal row with
      | none => simp [hkv] at h
      | some kv =>
        rcases kv with ⟨key, val⟩
        simp only [hkv] at h
        obtain ⟨h1, h2, es, h3, h4⟩ := ih fuel _ sm err h
        refine ⟨h1, by simp; omega, (key, val) :: es, List.Forall₂.cons hkv h3, ?_⟩
        simpa [foldEntries] using h4

/-- A run of the loop on a list whose every row gives an entry returns, given
fuel for one pass more than there are rows. -/
theorem foldRows_of_entries (rows : List Row) (es : List (GoString × GoString))
    (h : List.Forall₂ (fun row e => keyVal row = some e) rows es) :
    ∀ (fuel : Nat) (m : Schema), rows.length < fuel →
      foldRows fuel rows m = .returned (some (foldEntries es m)) none := by
  induction h with
  | nil =>
    intro fuel m hf
    cases fuel with
    | zero => simp at hf
    | succ fuel => simp [foldRows, foldEntries]
  | @cons row e rows es hkv _ ih =>
    intro fuel m hf
    cases fuel with
    | zero => simp at hf
    | succ fuel =>
      rcases e with ⟨key, val⟩
      simp only [foldRows, hkv, foldEntries]
      exact ih fuel _ (by simpa using hf)

theorem entries_of_rows (rows : List Row)
    (h : ∀ row ∈ rows, ∃ k v, row[0]? = some (.str k) ∧ row[1]? = some (.str v)) :
    ∃ es, List.Forall₂ (fun row e => keyVal row = some e) rows es := by
  induction rows with
  | nil => exact ⟨[], List.Forall₂.nil⟩
  | cons row rest ih =>
    obtain ⟨es, hes⟩ := ih (fun r hr => h r (List.mem_cons_of_mem _ hr))
    obtain ⟨k, v, hk⟩ := h row (List.mem_cons_self _ _)
    exact ⟨(k, v) :: es, List.Forall₂.cons ((keyVal_eq_some_iff row k v).mpr hk) hes⟩

theorem entries_keys {rows : List Row} {es : List (GoString × GoString)}
    (h : List.Forall₂ (fun row e => keyVal row = some e) rows es) (k : GoString) :
    (∃ e ∈ es, e.1 = k) ↔ ∃ row ∈ rows, row[0]? = some (.str k) := by
  induction h with
  | nil => simp
  | @cons row e rows es hkv _ ih =>
    rcases e with ⟨key, val⟩
    have h0 := ((keyVal_eq_some_iff row key val).mp hkv).1
    simp only [List.mem_cons, exists_eq_or_imp, ih, h0]
    simp

theorem entries_values {rows : List Row} {es : List (GoString × GoString)}
    (h : List.Forall₂ (fun row e => keyVal row = some e) rows es) (k : GoString) :
    ((es.filter (fun e => e.1 = k)).map (fun e => e.2)).map (fun v => some (Value.str v)) =
      (rows.filter (fun row => row[0]? = some (.str k))).map (fun row => row[1]?) := by
  induction h with
  | nil => simp
  | @cons row e rows es hkv _ ih =>
    rcases e with ⟨key, val⟩
    obtain ⟨h0, h1⟩ := (keyVal_eq_some_iff row key val).mp hkv
    by_cases hk : key = k
    · have h2 : row[0]? = some (Value.str k) := by rw [h0, hk]
      simp only [List.filter_cons, hk, h2, decide_True, if_true, List.map_cons, h1, ih]
    · have h2 : ¬ row[0]? = some (Value.str k) := by
        rw [h0]; simpa using hk
      simp only [List.filter_cons, hk, h2, decide_False]
      simpa using ih

theorem Query_of_ok {c : PostgresClient} {query : String} {d : sqlRows} (now : Nat)
    (hq : c.sql.query query = .ok d) :
    c.Query query now = (some (newPGRows d { Query := query, Timestamp := now }), none) := by
  simp [PostgresClient.Query, hq]

theorem Schema_of_Query {c : PostgresClient} {now : Nat} {r : PostgresRows}
    (hq : c.Query schemaQuery now = (some r, none)) (fuel : Nat) :
    c.Schema now fuel = schemaLoop fuel r ⟨[]⟩ 0 := by
  simp [PostgresClient.Schema, hq]

/-- The loop does not panic on an iterator whose every row gives an entry. -/
theorem schemaLoop_no_panic (fuel : Nat) : ∀ (r : PostgresRows) (m : Schema) (calls : Nat),
    (∀ k row, (r.nextAt k).1 = some row → (keyVal row).isSome = true) →
    (schemaLoop fuel r m calls).result ≠ .panicked := by
  induction fuel with
  | zero => intro r m calls _; simp [schemaLoop]
  | succ fuel ih =>
    intro r m calls hwf
    rcases hN : r.Next.1 with ⟨row, err⟩
    cases row with
    | none => simp [schemaLoop, hN]
    | some row =>
      cases err with
      | some err => simp [schemaLoop, hN]
      | none =>
        have h0 := hwf 0 row (by simp [PostgresRows.nextAt, hN])
        obtain ⟨kv, hkv⟩ := Option.isSome_iff_exists.mp h0
        rcases kv with ⟨key, val⟩
        simp only [schemaLoop, hN, hkv]
        exact ih r.Next.2 _ _ (fun k row' h => hwf (k + 1) row' (by simpa [PostgresRows.nextAt] using h))

/-- The loop returns a schema and no error once some `Next` call returns the nil
row, when every row before gives an entry. -/
theorem schemaLoop_returns (n : Nat) : ∀ (r : PostgresRows) (m : Schema) (calls fuel : Nat),
    (r.nextAt n).1 = none →
    (∀ k row, (r.nextAt k).1 = some row → (keyVal row).isSome = true) →
    n < fuel →
    ∃ m', (schemaLoop fuel r m calls).result = .returned (some m') none := by
  induction n with
  | zero =>
    intro r m calls fuel hnil _ hf
    cases fuel with
    | zero => omega
    | succ fuel =>
      rcases hN : r.Next.1 with ⟨row, err⟩
      have : row = none := by simpa [PostgresRows.nextAt, hN] using hnil
      subst this
      exact ⟨m, by simp [schemaLoop, hN]⟩
  | succ n ih =>
    intro r m calls fuel hnil hwf hf
    cases fuel with
    | zero => omega
    | succ fuel =>
      rcases hN : r.Next.1 with ⟨row, err⟩
      cases row with
      | none => exact ⟨m, by simp [schemaLoop, hN]⟩
      | some row =>
        have hpair := @nextAt_fst_some r 0 row
          (by simp [PostgresRows.nextAt, hN])
        have herr : err = none := by
          simpa [PostgresRows.nextAt, hN] using hpair
        subst herr
        have h0 := hwf 0 row (by simp [PostgresRows.nextAt, hN])
        obtain ⟨kv, hkv⟩ := Option.isSome_iff_exists.mp h0
        rcases kv with ⟨key, val⟩
        simp only [schemaLoop, hN, hkv]
        exact ih r.Next.2 _ _ fuel (by simpa [PostgresRows.nextAt] using hnil)
          (fun k row' h => hwf (k + 1) row' (by simpa [PostgresRows.nextAt] using h))
          (by omega)

/-- The loop panics at the first row that gives no entry. -/
theorem schemaLoop_panics (i : Nat) : ∀ (r : PostgresRows) (m : Schema) (calls fuel : Nat),
    (∀ j, j < i → ∃ row, r.nextAt j = (some row, none) ∧ (keyVal row).isSome = true) →
    (∃ row, r.nextAt i = (some row, none) ∧ keyVal row = none) →
    i < fuel →
    (schemaLoop fuel r m calls).result = .panicked := by
  induction i with
  | zero =>
    intro r m calls fuel _ hbad hf
    cases fuel with
    | zero => omega
    | succ fuel =>
      obtain ⟨row, hrow, hkv⟩ := hbad
      have hN : r.Next.1 = (some row, none) := by simpa [PostgresRows.nextAt] using hrow
      simp [schemaLoop, hN, hkv]
  | succ i ih =>
    intro r m calls fuel hgood hbad hf
    cases fuel with
    | zero => omega
    | succ fuel =>
      obtain ⟨row, hrow, hkv⟩ := hgood 0 (by omega)
      have hN : r.Next.1 = (some row, none) := by simpa [PostgresRows.nextAt] using hrow
      obtain ⟨kv, hkv'⟩ := Option.isSome_iff_exists.mp hkv
      rcases kv with ⟨key, val⟩
      simp only [schemaLoop, hN, hkv']
      exact ih r.Next.2 _ _ fuel
        (fun j hj => by simpa [PostgresRows.nextAt] using hgood (j + 1) (by omega))
        (by simpa [PostgresRows.nextAt] using hbad)
        (by omega)

/-! ## The row iterator: properties -/

/-- C1: for a row the underlying cursor yields without error, `Next` returns a row
of the same positions in which every byte buffer has become the string of the
same bytes and every other value is unchanged; no value of the returned row is a
byte buffer. -/
theorem Next_normalises_bytes (r : PostgresRows) (row : Row)
    (h : r.dbRows.next.1 = (some row, none)) :
    ∃ row', r.Next.1 = (some row', none) ∧ row'.length = row.length ∧
      (∀ (i : Nat) (b : GoString), row[i]? = some (Value.bytes b) →
        row'[i]? = some (Value.str b)) ∧
      (∀ (i : Nat) (v : Value), row[i]? = some v → (∀ b, v ≠ Value.bytes b) →
        row'[i]? = some v) ∧
      ∀ v ∈ row', ∀ b, v ≠ Value.bytes b := by
  refine ⟨row.map coerceBytes, ?_, by simp, ?_, ?_, ?_⟩
  · rw [Next_fst, h]
  · intro i b hi
    simp [List.getElem?_map, hi, coerceBytes]
  · intro i v hi hv
    cases v <;> simp_all [List.getElem?_map, coerceBytes]
  · intro v hv b
    obtain ⟨a, _, rfl⟩ := List.mem_map.mp hv
    exact coerceBytes_ne_bytes a b

theorem Next_normalises_bytes_witness :
    ∃ row', (newPGRows threeRows { Query := schemaQuery, Timestamp := 0 }).Next.1 =
        (some row', none) ∧
      row'.length = [Value.bytes sPublic, Value.bytes sUsers].length ∧
      (∀ (i : Nat) (b : GoString),
        [Value.bytes sPublic, Value.bytes sUsers][i]? = some (Value.bytes b) →
        row'[i]? = some (Value.str b)) ∧
      (∀ (i : Nat) (v : Value), [Value.bytes sPublic, Value.bytes sUsers][i]? = some v →
        (∀ b, v ≠ Value.bytes b) → row'[i]? = some v) ∧
      ∀ v ∈ row', ∀ b, v ≠ Value.bytes b :=
  Next_normalises_bytes (newPGRows threeRows { Query := schemaQuery, Timestamp := 0 })
    [Value.bytes sPublic, Value.bytes sUsers] rfl

/-- C5: call for call, `Next` returns a row exactly when the underlying cursor
yields one without error, and the returned row has the length of the cursor's
row; so when the cursor yields one value per column of `Header()`, every row
`Next` returns has the length of the header. -/
theorem Next_row_length (r : PostgresRows) :
    (∀ k row, r.dbRows.nextAt k = (some row, none) →
      ∃ row', r.nextAt k = (some row', none) ∧ row'.length = row.length) ∧
    (∀ k row', (r.nextAt k).1 = some row' →
      ∃ row, r.dbRows.nextAt k = (some row, none) ∧ row'.length = row.length) ∧
    (∀ hdr, r.Header = (some hdr, none) →
      (∀ k row, (r.dbRows.nextAt k).1 = some row → row.length = hdr.length) →
      ∀ k row', (r.nextAt k).1 = some row' → row'.length = hdr.length) := by
  have key : ∀ k row', (r.nextAt k).1 = some row' →
      ∃ row, r.dbRows.nextAt k = (some row, none) ∧ row'.length = row.length := by
    intro k row' h
    rw [nextAt_eq] at h
    rcases hk : r.dbRows.nextAt k with ⟨row, err⟩
    rw [hk] at h
    cases err <;> cases row <;> simp at h
    subst h
    exact ⟨_, rfl, by simp⟩
  refine ⟨?_, key, ?_⟩
  · intro k row h
    exact ⟨row.map coerceBytes, by rw [nextAt_eq, h], by simp⟩
  · intro hdr _ hcols k row' h
    obtain ⟨row, hrow, hlen⟩ := key k row' h
    rw [hlen]
    exact hcols k row (by rw [hrow])

/-- C6: once the underlying cursor is exhausted, from its call number `n` on (a
nil row and no error at that call and at every later one), `Next` returns the nil
row with a nil error at call `n` and at every later call. -/
theorem Next_exhaustion_idempotent (r : PostgresRows) (n : Nat)
    (h : ∀ k, n ≤ k → r.dbRows.nextAt k = (none, none)) :
    ∀ k, n ≤ k → r.nextAt k = (none, none) := by
  intro k hk
  rw [nextAt_eq, h k hk]

theorem threeRows_exhausted (k : Nat) (hk : 3 ≤ k) :
    (newPGRows threeRows { Query := schemaQuery, Timestamp := 0 }).dbRows.nextAt k =
      (none, none) := by
  obtain ⟨j, rfl⟩ : ∃ j, k = j + 3 := ⟨k - 3, by omega⟩
  rw [sqlRows_nextAt_eq]
  simp [newPGRows, threeRows]

theorem Next_exhaustion_idempotent_witness :
    (newPGRows threeRows { Query := schemaQuery, Timestamp := 0 }).nextAt 3 = (none, none) ∧
    (newPGRows threeRows { Query := schemaQuery, Timestamp := 0 }).nextAt 4 = (none, none) ∧
    (newPGRows threeRows { Query := schemaQuery, Timestamp := 0 }).nextAt 9 = (none, none) :=
  ⟨Next_exhaustion_idempotent _ 3 threeRows_exhausted 3 (by decide),
    Next_exhaustion_idempotent _ 3 threeRows_exhausted 4 (by decide),
    Next_exhaustion_idempotent _ 3 threeRows_exhausted 9 (by decide)⟩

/-! ## The client: properties -/

/-- C7: `Query` returns a non-nil error exactly when the underlying sql query call
fails; then the iterator is nil and the error is the backend's own, unchanged;
otherwise `Query` returns an iterator over the cursor and a nil error. -/
theorem Query_error_verbatim (c : PostgresClient) (query : String) (now : Nat) :
    ((c.Query query now).2 ≠ none ↔ ∃ e, c.sql.query query = .error e) ∧
    (∀ e, c.sql.query query = .error e → c.Query query now = (none, some e)) ∧
    (∀ d, c.sql.query query = .ok d →
      ∃ it, c.Query query now = (some it, none) ∧ it.dbRows = d) := by
  unfold PostgresClient.Query
  cases hq : c.sql.query query with
  | error e => simp
  | ok d => simp [newPGRows]

/-- C4: when the `Query` call of `Schema` returns an error, `Schema` returns the
nil schema with that same error and makes no `Next` call. -/
theorem Schema_query_error (c : PostgresClient) (now fuel : Nat) (e : GoError)
    (h : (c.Query schemaQuery now).2 = some e) :
    c.Schema now fuel = { result := .returned none (some e), nextCalls := 0 } := by
  unfold PostgresClient.Schema
  rcases hq : c.Query schemaQuery now with ⟨it, err⟩
  rw [hq] at h
  simp only at h
  subst h
  cases it <;> rfl

theorem Schema_query_error_witness :
    rejectingClient.Schema 0 5 =
      { result := .returned none (some "pq: syntax error at end of input"),
        nextCalls := 0 } :=
  Schema_query_error rejectingClient 0 5 "pq: syntax error at end of input" rfl

/-- The shape of every schema the loop returns, over the rows read before the
first nil row. -/
theorem Schema_returned_entries {c : PostgresClient} {now : Nat} {r : PostgresRows}
    {rows : List Row}
    (hq : c.Query schemaQuery now = (some r, none))
    (hrows : ∀ i (h : i < rows.length), (r.nextAt i).1 = some (rows.get ⟨i, h⟩))
    (hnil : (r.nextAt rows.length).1 = none)
    {fuel : Nat} {sm : Option Schema} {err : Option GoError}
    (hret : (c.Schema now fuel).result = .returned sm err) :
    err = none ∧ rows.length < fuel ∧
      ∃ es, List.Forall₂ (fun row e => keyVal row = some e) rows es ∧
        sm = some (foldEntries es ⟨[]⟩) := by
  rw [Schema_of_Query hq, schemaLoop_result rows r _ _ _ hrows hnil] at hret
  exact foldRows_returned rows fuel _ sm err hret

theorem Schema_returns_entries {c : PostgresClient} {now : Nat} {r : PostgresRows}
    {rows : List Row}
    (hq : c.Query schemaQuery now = (some r, none))
    (hrows : ∀ i (h : i < rows.length), (r.nextAt i).1 = some (rows.get ⟨i, h⟩))
    (hnil : (r.nextAt rows.length).1 = none)
    (hwf : ∀ row ∈ rows, ∃ k v, row[0]? = some (Value.str k) ∧ row[1]? = some (Value.str v))
    {fuel : Nat} (hf : rows.length < fuel) :
    ∃ es, List.Forall₂ (fun row e => keyVal row = some e) rows es ∧
      (c.Schema now fuel).result = .returned (some (foldEntries es ⟨[]⟩)) none := by
  obtain ⟨es, hes⟩ := entries_of_rows rows hwf
  refine ⟨es, hes, ?_⟩
  rw [Schema_of_Query hq, schemaLoop_result rows r _ _ _ hrows hnil]
  exact foldRows_of_entries rows es hes fuel _ hf

theorem empty_has (k : GoString) : (Schema.mk []).has k = false := rfl

theorem empty_get (k : GoString) : (Schema.mk []).get k = [] := rfl

/-- C2: let `rows` be the rows successive `Next` calls return before the first nil
row. Every map `Schema` returns has as keys exactly the first-column values of
`rows`, and under each key the second-column values of the rows with that first
column, in the order of the rows; and `Schema` does return such a map, when the
first two values of every row are strings and the loop has fuel for one pass more
than there are rows. -/
theorem Schema_folds_rows (c : PostgresClient) (now : Nat) (r : PostgresRows)
    (rows : List Row)
    (hq : c.Query schemaQuery now = (some r, none))
    (hrows : ∀ i (h : i < rows.length), (r.nextAt i).1 = some (rows.get ⟨i, h⟩))
    (hnil : (r.nextAt rows.length).1 = none) :
    (∀ fuel sm err, (c.Schema now fuel).result = .returned sm err →
      ∃ m, sm = some m ∧ err = none ∧
        (∀ k, m.has k = true ↔ ∃ row ∈ rows, row[0]? = some (Value.str k)) ∧
        (∀ k, (m.get k).map (fun v => some (Value.str v)) =
          (rows.filter (fun row => row[0]? = some (Value.str k))).map (fun row => row[1]?))) ∧
    ((∀ row ∈ rows, ∃ k v, row[0]? = some (Value.str k) ∧ row[1]? = some (Value.str v)) →
      ∀ fuel, rows.length < fuel →
        ∃ m, (c.Schema now fuel).result = .returned (some m) none) := by
  constructor
  · intro fuel sm err hret
    obtain ⟨herr, _, es, hes, hsm⟩ := Schema_returned_entries hq hrows hnil hret
    refine ⟨_, hsm, herr, ?_, ?_⟩
    · intro k
      rw [foldEntries_has, empty_has, ← entries_keys hes k]
      simp
    · intro k
      rw [foldEntries_get, empty_get, List.nil_append]
      exact entries_values hes k
  · intro hwf fuel hf
    obtain ⟨es, _, hret⟩ := Schema_returns_entries hq hrows hnil hwf hf
    exact ⟨_, hret⟩

theorem Schema_folds_rows_witness :
    (∀ fuel sm err, ((clientOf threeRows).Schema 0 fuel).result = .returned sm err →
      ∃ m, sm = some m ∧ err = none ∧
        (∀ k, m.has k = true ↔
          ∃ row ∈ [[Value.str sPublic, Value.str sUsers],
            [Value.str sAudit, Value.str sLog, Value.int 7],
            [Value.str sPublic, Value.str sOrders]], row[0]? = some (Value.str k)) ∧
        (∀ k, (m.get k).map (fun v => some (Value.str v)) =
          ([[Value.str sPublic, Value.str sUsers],
            [Value.str sAudit, Value.str sLog, Value.int 7],
            [Value.str sPublic, Value.str sOrders]].filter
              (fun row => row[0]? = some (Value.str k))).map (fun row => row[1]?))) ∧
    ((∀ row ∈ [[Value.str sPublic, Value.str sUsers],
        [Value.str sAudit, Value.str sLog, Value.int 7],
        [Value.str sPublic, Value.str sOrders]],
        ∃ k v, row[0]? = some (Value.str k) ∧ row[1]? = some (Value.str v)) →
      ∀ fuel, [[Value.str sPublic, Value.str sUsers],
        [Value.str sAudit, Value.str sLog, Value.int 7],
        [Value.str sPublic, Value.str sOrders]].length < fuel →
        ∃ m, ((clientOf threeRows).Schema 0 fuel).result = .returned (some m) none) :=
  Schema_folds_rows (clientOf threeRows) 0
    (newPGRows threeRows { Query := schemaQuery, Timestamp := 0 })
    [[Value.str sPublic, Value.str sUsers],
      [Value.str sAudit, Value.str sLog, Value.int 7],
      [Value.str sPublic, Value.str sOrders]]
    rfl
    (by
      intro i h
      have h3 : i < 3 := h
      interval_cases i <;> rfl)
    rfl

/-- C3: on the cursor that yields one row and then fails, the second `Next` call
of `Schema` returns an error, and `Schema` returns the schema built from the row
read so far together with a nil error. -/
theorem Schema_swallows_drain_error :
    (newPGRows brokenAfterOne { Query := schemaQuery, Timestamp := 0 }).nextAt 1 =
        (none, some "pq: connection reset by peer") ∧
      (clientOf brokenAfterOne).Schema 0 5 =
        { result := .returned (some ⟨[(sPublic, [sUsers])]⟩) none, nextCalls := 2 } := by
  constructor <;> rfl

theorem entries_cols {rows : List Row} {es : List (GoString × GoString)}
    (h : List.Forall₂ (fun row e => keyVal row = some e) rows es) :
    rows.map (fun row => (row[0]?, row[1]?)) =
      es.map (fun e => (some (Value.str e.1), some (Value.str e.2))) := by
  induction h with
  | nil => simp
  | @cons row e rows es hkv _ ih =>
    rcases e with ⟨key, val⟩
    obtain ⟨h0, h1⟩ := (keyVal_eq_some_iff row key val).mp hkv
    simp [h0, h1, ih]

theorem foldEntries_get_nodup {es : List (GoString × GoString)} (h : es.Nodup)
    (k : GoString) : ((foldEntries es ⟨[]⟩).get k).Nodup := by
  rw [foldEntries_get, empty_get, List.nil_append]
  refine List.Nodup.map_on ?_ (h.filter _)
  intro x hx y hy hxy
  have hx1 : x.1 = k := by simpa using (List.mem_filter.mp hx).2
  have hy1 : y.1 = k := by simpa using (List.mem_filter.mp hy).2
  exact Prod.ext (hx1.trans hy1.symm) hxy

/-- C8, the claim as stated fails: on the cursor that yields the row
(public, users) twice, `Schema` returns a map whose list for `public` holds
`users` twice. -/
theorem Schema_repeats_names :
    ∃ m, ((clientOf repeatedRow).Schema 0 5).result = .returned (some m) none ∧
      m.has sPublic = true ∧ m.get sPublic = [sUsers, sUsers] ∧ ¬ (m.get sPublic).Nodup :=
  ⟨⟨[(sPublic, [sUsers, sUsers])]⟩, rfl, rfl, rfl, by decide⟩

/-- C8, amended: let `rows` be the rows successive `Next` calls return before the
first nil row. When no two of them agree in both their first and their second
value, no object name occurs more than once in the list of any schema name, in
every map `Schema` returns; and `Schema` does return such a map, when the first
two values of every row are strings and the loop has fuel for one pass more than
there are rows. -/
theorem Schema_names_distinct (c : PostgresClient) (now : Nat) (r : PostgresRows)
    (rows : List Row)
    (hq : c.Query schemaQuery now = (some r, none))
    (hrows : ∀ i (h : i < rows.length), (r.nextAt i).1 = some (rows.get ⟨i, h⟩))
    (hnil : (r.nextAt rows.length).1 = none)
    (hdist : (rows.map (fun row => (row[0]?, row[1]?))).Nodup) :
    (∀ fuel sm err, (c.Schema now fuel).result = .returned sm err →
      ∃ m, sm = some m ∧ ∀ k, (m.get k).Nodup) ∧
    ((∀ row ∈ rows, ∃ k v, row[0]? = some (Value.str k) ∧ row[1]? = some (Value.str v)) →
      ∀ fuel, rows.length < fuel →
        ∃ m, (c.Schema now fuel).result = .returned (some m) none ∧ ∀ k, (m.get k).Nodup) := by
  constructor
  · intro fuel sm err hret
    obtain ⟨_, _, es, hes, hsm⟩ := Schema_returned_entries hq hrows hnil hret
    rw [entries_cols hes] at hdist
    exact ⟨_, hsm, foldEntries_get_nodup (List.Nodup.of_map _ hdist)⟩
  · intro hwf fuel hf
    obtain ⟨es, hes, hret⟩ := Schema_returns_entries hq hrows hnil hwf hf
    rw [entries_cols hes] at hdist
    exact ⟨_, hret, foldEntries_get_nodup (List.Nodup.of_map _ hdist)⟩

theorem Schema_names_distinct_witness :
    ∃ m, ((clientOf threeRows).Schema 0 4).result = .returned (some m) none ∧
      ∀ k, (m.get k).Nodup :=
  (Schema_names_distinct (clientOf threeRows) 0
    (newPGRows threeRows { Query := schemaQuery, Timestamp := 0 })
    [[Value.str sPublic, Value.str sUsers],
      [Value.str sAudit, Value.str sLog, Value.int 7],
      [Value.str sPublic, Value.str sOrders]]
    rfl
    (by
      intro i h
      have h3 : i < 3 := h
      interval_cases i <;> rfl)
    rfl
    (by decide)).2
    (by
      intro row hrow
      simp only [List.mem_cons, List.mem_singleton, List.not_mem_nil, or_false] at hrow
      rcases hrow with rfl | rfl | rfl <;> exact ⟨_, _, rfl, rfl⟩)
    4 (by decide)

theorem nextAt_of_cursor {r : PostgresRows} {k : Nat} {row : Row}
    (h : r.dbRows.nextAt k = (some row, none)) :
    r.nextAt k = (some (row.map coerceBytes), none) := by
  rw [nextAt_eq, h]

theorem nextAt_some_cursor {r : PostgresRows} {k : Nat} {row' : Row}
    (h : (r.nextAt k).1 = some row') :
    ∃ row, r.dbRows.nextAt k = (some row, none) ∧ row' = row.map coerceBytes := by
  rw [nextAt_eq] at h
  rcases hk : r.dbRows.nextAt k with ⟨row, err⟩
  rw [hk] at h
  cases err <;> cases row <;> simp at h
  exact ⟨_, rfl, h.symm⟩

theorem nextAt_nil_of_cursor {r : PostgresRows} {k : Nat}
    (h : (r.dbRows.nextAt k).1 = none ∨ (r.dbRows.nextAt k).2 ≠ none) :
    (r.nextAt k).1 = none := by
  rw [nextAt_eq]
  rcases hk : r.dbRows.nextAt k with ⟨row, err⟩
  rw [hk] at h
  cases err <;> cases row <;> simp at h ⊢

/-- C10: when every non-nil row the underlying cursor yields has at least two
values, the first two of them text (a string or a byte buffer), `Schema` never
panics, and it returns a schema as soon as the cursor yields a nil row or an
error, given fuel for that many passes. The precondition is needed: the first
row the cursor yields without error that is short of two values, or has a value
that is not text among its first two, makes `Schema` panic. -/
theorem Schema_no_fault (c : PostgresClient) (now : Nat) (d : sqlRows)
    (hq : c.sql.query schemaQuery = .ok d) :
    ((∀ k row, (d.nextAt k).1 = some row → twoTexts row = true) →
      (∀ fuel, (c.Schema now fuel).result ≠ .panicked) ∧
      (∀ n, (d.nextAt n).1 = none ∨ (d.nextAt n).2 ≠ none →
        ∀ fuel, n < fuel → ∃ m, (c.Schema now fuel).result = .returned (some m) none)) ∧
    (∀ i row, (∀ j, j < i → ∃ rj, d.nextAt j = (some rj, none) ∧ twoTexts rj = true) →
      d.nextAt i = (some row, none) → twoTexts row = false →
      ∀ fuel, i < fuel → (c.Schema now fuel).result = .panicked) := by
  have hS := Schema_of_Query (Query_of_ok now hq)
  constructor
  · intro hpre
    have hwf : ∀ k row', ((newPGRows d { Query := schemaQuery, Timestamp := now }).nextAt k).1
        = some row' → (keyVal row').isSome = true := by
      intro k row' h
      obtain ⟨row, hrow, rfl⟩ := nextAt_some_cursor h
      rw [keyVal_map_coerceBytes]
      exact hpre k row (by rw [show d.nextAt k = _ from hrow])
    constructor
    · intro fuel
      rw [hS]
      exact schemaLoop_no_panic fuel _ _ _ hwf
    · intro n hn fuel hf
      rw [hS]
      exact schemaLoop_returns n _ _ _ fuel (nextAt_nil_of_cursor hn) hwf hf
  · intro i row hgood hrow hbad fuel hf
    rw [hS]
    refine schemaLoop_panics i _ _ _ fuel ?_ ?_ hf
    · intro j hj
      obtain ⟨rj, hrj, htj⟩ := hgood j hj
      exact ⟨_, nextAt_of_cursor hrj, by rw [keyVal_map_coerceBytes]; exact htj⟩
    · refine ⟨_, nextAt_of_cursor hrow, ?_⟩
      have := keyVal_map_coerceBytes row
      rw [hbad] at this
      simpa using this

theorem threeRows_twoTexts (k : Nat) (row : Row) (h : (threeRows.nextAt k).1 = some row) :
    twoTexts row = true := by
  rw [sqlRows_nextAt_eq] at h
  rcases k with _ | _ | _ | k <;> simp [threeRows] at h <;> subst h <;> rfl

theorem Schema_no_fault_witness :
    ((∀ fuel, ((clientOf threeRows).Schema 0 fuel).result ≠ .panicked) ∧
      ∃ m, ((clientOf threeRows).Schema 0 4).result = .returned (some m) none) ∧
    ((clientOf shortRow).Schema 0 1).result = .panicked :=
  ⟨⟨((Schema_no_fault (clientOf threeRows) 0 threeRows rfl).1 threeRows_twoTexts).1,
      ((Schema_no_fault (clientOf threeRows) 0 threeRows rfl).1 threeRows_twoTexts).2 3
        (Or.inl rfl) 4 (by decide)⟩,
    (Schema_no_fault (clientOf shortRow) 0 shortRow rfl).2 0 [Value.bytes sPublic]
      (fun j hj => absurd hj (Nat.not_lt_zero j)) rfl rfl 1 (by decide)⟩

/-! ## The Call state machine: properties -/

theorem handle_issuedCalls (c : Call) (hc : c ∈ issuedCalls) (e : CallEvent) :
    c.handle e ∈ issuedCalls := by
  simp only [issuedCalls, List.mem_cons, List.mem_singleton, List.not_mem_nil, or_false] at hc
  rcases hc with rfl | rfl | rfl | rfl | rfl | rfl | rfl <;> cases e <;> decide

theorem foldl_issuedCalls (events : List CallEvent) : ∀ c ∈ issuedCalls,
    events.foldl Call.handle c ∈ issuedCalls := by
  induction events with
  | nil => intro c hc; exact hc
  | cons e es ih => intro c hc; exact ih _ (handle_issuedCalls c hc e)

theorem Execute_issuedCalls (events : List CallEvent) : Execute events ∈ issuedCalls := by
  unfold Execute
  rw [List.foldl_cons]
  exact foldl_issuedCalls events _ (by decide)

theorem handle_terminal (c : Call) (h : c.state.terminal = true) (e : CallEvent) :
    c.handle e = c := by
  rcases c with ⟨st, obs⟩
  cases st <;> cases e <;> simp_all [Call.handle, CallState.step, CallState.terminal]

theorem foldl_terminal (events : List CallEvent) : ∀ c : Call, c.state.terminal = true →
    events.foldl Call.handle c = c := by
  induction events with
  | nil => intro c _; rfl
  | cons e es ih =>
    intro c hc
    rw [List.foldl_cons, handle_terminal c hc e]
    exact ih c hc

/-- C9: the states delivered to the observer of a Call issued by `Execute` begin
one of the five valid paths from `Unknown`, and are one of them once the Call is
in a terminal state; no state is delivered twice and nothing is delivered after
a terminal state. A Call cancelled right after being issued observes
`[Executing, Canceled]`, a query that returns and drains observes
`[Executing, Retrieving, Archived]`. -/
theorem Execute_valid_path (events : List CallEvent) :
    (∃ p ∈ validPaths, ∃ rest, (Execute events).observed ++ rest = p) ∧
    (Execute events).observed.head? = some .Executing ∧
    ((Execute events).state.terminal = true → (Execute events).observed ∈ validPaths) ∧
    (Execute events).observed.Nodup ∧
    ((Execute events).state.terminal = true →
      ∀ more, (Execute (events ++ more)).observed = (Execute events).observed) ∧
    (Execute (.cancel :: events)).observed = [.Executing, .Canceled] ∧
    (Execute (.queryReturned :: .drainDone :: events)).observed =
      [.Executing, .Retrieving, .Archived] := by
  have hmem := Execute_issuedCalls events
  refine ⟨?_, ?_, ?_, ?_, ?_, ?_, ?_⟩
  · generalize Execute events = c at hmem
    simp only [issuedCalls, List.mem_cons, List.mem_singleton, List.not_mem_nil, or_false] at hmem
    rcases hmem with rfl | rfl | rfl | rfl | rfl | rfl | rfl
    · exact ⟨[.Executing, .Canceled], by decide, [.Canceled], rfl⟩
    · exact ⟨_, by decide, [], rfl⟩
    · exact ⟨_, by decide, [], rfl⟩
    · exact ⟨[.Executing, .Retrieving, .Archived], by decide, [.Archived], rfl⟩
    · exact ⟨_, by decide, [], rfl⟩
    · exact ⟨_, by decide, [], rfl⟩
    · exact ⟨_, by decide, [], rfl⟩
  · generalize Execute events = c at hmem
    simp only [issuedCalls, List.mem_cons, List.mem_singleton, List.not_mem_nil, or_false] at hmem
    rcases hmem with rfl | rfl | rfl | rfl | rfl | rfl | rfl <;> rfl
  · generalize Execute events = c at hmem
    simp only [issuedCalls, List.mem_cons, List.mem_singleton, List.not_mem_nil, or_false] at hmem
    rcases hmem with rfl | rfl | rfl | rfl | rfl | rfl | rfl <;> decide
  · generalize Execute events = c at hmem
    simp only [issuedCalls, List.mem_cons, List.mem_singleton, List.not_mem_nil, or_false] at hmem
    rcases hmem with rfl | rfl | rfl | rfl | rfl | rfl | rfl <;> decide
  · intro hterm more
    have : Execute (events ++ more) = more.foldl Call.handle (Execute events) := by
      simp [Execute, List.foldl_append]
    rw [this, foldl_terminal more _ hterm]
  · have : Execute (.cancel :: events) =
        events.foldl Call.handle ⟨.Canceled, [.Executing, .Canceled]⟩ := rfl
    rw [this, foldl_terminal events ⟨.Canceled, [.Executing, .Canceled]⟩ rfl]
  · have : Execute (.queryReturned :: .drainDone :: events) =
        events.foldl Call.handle ⟨.Archived, [.Executing, .Retrieving, .Archived]⟩ := rfl
    rw [this, foldl_terminal events ⟨.Archived, [.Executing, .Retrieving, .Archived]⟩ rfl]

end Dbee
